import Mathlib

/-!
Shallow embedding of `IPython/frontend/qt/console/history_console_widget.py`
(class `HistoryConsoleWidget`): the history log, the navigation cursor, the
sparse edit overlay, and the operations `execute` (history-recording path),
`history_previous`, `history_next`, `history_tail`, `_get_edited_history`,
`_set_edited_input_buffer`, `_set_history`.

Python strings are modelled as lists of characters (`PyString`); the Python
dict `_history_edits` is modelled as an association list whose lookup is
first-match (assignment conses the new pair at the front, which shadows any
older binding, exactly like dict assignment for lookup purposes).  A Python
`IndexError` escaping an operation is modelled by the explicit outcome
`raised` / `ScanResult.raised`; in the source an exception raised inside a
navigation scan propagates before any attribute of the widget is mutated, so
the state component is returned unchanged in that case.
-/

/-- Python strings as character lists. -/
abbrev PyString := List Char

/-- The whitespace characters stripped by Python `str.rstrip()` (ASCII core:
space, tab, newline, carriage return, vertical tab, form feed). -/
def pyIsSpace (c : Char) : Bool :=
  c == ' ' || c == '\t' || c == '\n' || c == '\r' || c == '\x0b' || c == '\x0c'

/-- Python `str.rstrip()`: drop trailing whitespace. -/
def pyRstrip (s : PyString) : PyString :=
  (s.reverse.dropWhile pyIsSpace).reverse

/-- Python `s.startswith(pre)`. -/
def pyStartsWith (s pre : PyString) : Bool :=
  pre.isPrefixOf s

/-- The state of a `HistoryConsoleWidget` as far as the history core is
concerned: `_history`, `_history_edits`, `_history_index`, and the widget's
`input_buffer` (owned by the base class, read and written by this core). -/
structure HistoryState where
  history : List PyString
  history_edits : List (Nat × PyString)
  history_index : Nat
  input_buffer : PyString
deriving DecidableEq

/-- `__init__`: empty log, empty overlay, index 0; the widget's buffer starts
empty. -/
def initialState : HistoryState :=
  { history := [], history_edits := [], history_index := 0, input_buffer := [] }

/-- `_get_edited_history(index)`: the overlay entry if present, else the log
entry.  `none` models the Python `IndexError` raised when the index is in
neither (`self._history[index]` out of range). -/
def get_edited_history (s : HistoryState) (index : Nat) : Option PyString :=
  match s.history_edits.lookup index with
  | some h => some h
  | none => s.history[index]?

/-- `_set_edited_input_buffer(source)`: saves the current input buffer in the
overlay at the *current* `_history_index`, then sets the buffer to `source`. -/
def set_edited_input_buffer (s : HistoryState) (source : PyString) : HistoryState :=
  { s with
    history_edits := (s.history_index, s.input_buffer) :: s.history_edits,
    input_buffer := source }

/-- Result of one navigation scan: a match found at an index, a clean
no-match, or a Python `IndexError`. -/
inductive ScanResult where
  | found (index : Nat) (text : PyString)
  | noMatch
  | raised
deriving DecidableEq

/-- Outcome of a navigation call: the buffer was moved to `text`, the call was
a clean no-op, or the call raised. -/
inductive NavOutcome where
  | moved (text : PyString)
  | noMatch
  | raised
deriving DecidableEq

/-- The backward scan of `history_previous`: `while index > 0: index -= 1;
history = self._get_edited_history(index); if history.startswith(prefix):
break / else: history = None`.  The argument is the scan's starting value of
`index`; the scan examines `n-1, n-2, ..., 0`. -/
def scanPrev (s : HistoryState) (pfx : PyString) : Nat → ScanResult
  | 0 => ScanResult.noMatch
  | n + 1 =>
    match get_edited_history s n with
    | none => ScanResult.raised
    | some t => if pyStartsWith t pfx then ScanResult.found n t else scanPrev s pfx n

/-- `history_previous(prefix)`: scan backward from `_history_index`; on a
match, save the buffer in the overlay at the old index, set the buffer to the
match, and move the index; otherwise leave everything unchanged.  A raise
propagates before any mutation, so the state is also unchanged then. -/
def history_previous (s : HistoryState) (pfx : PyString) : HistoryState × NavOutcome :=
  match scanPrev s pfx s.history_index with
  | ScanResult.raised => (s, NavOutcome.raised)
  | ScanResult.noMatch => (s, NavOutcome.noMatch)
  | ScanResult.found i t =>
    ({ set_edited_input_buffer s t with history_index := i }, NavOutcome.moved t)

/-- An exclusive upper bound on the keys of the overlay. -/
def keyBound (edits : List (Nat × PyString)) : Nat :=
  edits.foldr (fun p m => max (p.1 + 1) m) 0

/-- Past `scanBound s`, `get_edited_history` always raises: the index is
beyond the log and beyond every overlay key. -/
def scanBound (s : HistoryState) : Nat :=
  max s.history.length (keyBound s.history_edits)

/-- The forward scan of `history_next`.  In the source the loop is
`while self._history_index < len(self._history): index += 1; ...` — the
condition never changes inside the loop, so once entered the loop exits only
via `break` (a match) or via the `IndexError` raised by
`self._history[index]` at the first index that is in neither the overlay nor
the log.  The scan is therefore an unbounded search that provably stops by
`scanBound s` at the latest; `fuel` makes the recursion structural, and
`scanNext_fuel_stable` below shows that at the fuel used by `history_next`
the value no longer depends on the fuel, i.e. the embedding computes the
loop's true outcome.  Arguments: fuel, then the next value of `index` to
examine. -/
def scanNext (s : HistoryState) (pfx : PyString) : Nat → Nat → ScanResult
  | 0, _ => ScanResult.raised
  | fuel + 1, i =>
    match get_edited_history s i with
    | none => ScanResult.raised
    | some t => if pyStartsWith t pfx then ScanResult.found i t else scanNext s pfx fuel (i + 1)

/-- `history_next(prefix)`: if `_history_index < len(_history)` the loop
body runs, scanning from `_history_index + 1` upward until a match (break)
or an `IndexError`; otherwise the `else` clause yields `history = None` and
the call is a clean no-op. -/
def history_next (s : HistoryState) (pfx : PyString) : HistoryState × NavOutcome :=
  if s.history_index < s.history.length then
    match scanNext s pfx (scanBound s + 1) (s.history_index + 1) with
    | ScanResult.raised => (s, NavOutcome.raised)
    | ScanResult.noMatch => (s, NavOutcome.noMatch)
    | ScanResult.found i t =>
      ({ set_edited_input_buffer s t with history_index := i }, NavOutcome.moved t)
  else
    (s, NavOutcome.noMatch)

/-- `history_tail(n)`: `self._history[-n:]`.  For `n = 0` the Python slice
`[-0:]` is `[0:]`, i.e. the *whole* list; for `n > 0` it is the last
`min(n, len)` entries. -/
def history_tail (s : HistoryState) (n : Nat) : List PyString :=
  if n = 0 then s.history else s.history.drop (s.history.length - n)

/-- The log update of `execute`: `history = history.rstrip(); if history and
(not self._history or self._history[-1] != history): self._history.append(history)`.
`not self._history or self._history[-1] != history` is equivalent to
`getLast? ≠ some history` (an empty list has no last element). -/
def commitLog (log : List PyString) (candidate : PyString) : List PyString :=
  if pyRstrip candidate ≠ [] ∧ log.getLast? ≠ some (pyRstrip candidate) then
    log ++ [pyRstrip candidate]
  else
    log

/-- `execute(source, hidden)` — the history-recording path.  `executed` is
the value returned by the base-class `execute` (an external oracle for this
core).  The candidate text is `source` if given, else the input buffer.  When
`executed and not hidden`: trim trailing whitespace; append unless empty or
equal to the last entry (`commitLog`); *unconditionally* clear the overlay
and set the index to the (new) log length.  Returns the state and
`executed`. -/
def execute (s : HistoryState) (source : Option PyString) (hidden executed : Bool) :
    HistoryState × Bool :=
  if executed && !hidden then
    ({ s with
        history := commitLog s.history (source.getD s.input_buffer),
        history_edits := [],
        history_index := (commitLog s.history (source.getD s.input_buffer)).length }, executed)
  else
    (s, executed)

/-- The spec's `commit(candidate)`: `execute` with an explicit source, not
hidden, and the line accepted by the execution engine. -/
def commit (s : HistoryState) (candidate : PyString) : HistoryState :=
  (execute s (some candidate) false true).1

/-- A sequence of `commit` calls. -/
def runCommits (s : HistoryState) (cs : List PyString) : HistoryState :=
  cs.foldl commit s

/-- `_set_history(history)`: wholesale replacement (the spec's `reset`). -/
def set_history (s : HistoryState) (entries : List PyString) : HistoryState :=
  { s with history := entries, history_edits := [], history_index := entries.length }

/-- The operations that can touch the core's state: the history-recording
path of `execute` (with the external `hidden`/`executed` flags as oracles),
the two navigations, wholesale replacement, and the external widget writing
the live input buffer (the user typing). -/
inductive Op where
  | exec (source : Option PyString) (hidden executed : Bool)
  | prev (pfx : PyString)
  | next (pfx : PyString)
  | setHistory (entries : List PyString)
  | setBuffer (text : PyString)

/-- Apply one operation; a navigation that raises leaves the state unchanged
(the exception propagates before any mutation). -/
def applyOp (s : HistoryState) : Op → HistoryState
  | Op.exec source hidden executed => (execute s source hidden executed).1
  | Op.prev pfx => (history_previous s pfx).1
  | Op.next pfx => (history_next s pfx).1
  | Op.setHistory entries => set_history s entries
  | Op.setBuffer text => { s with input_buffer := text }

/-- Run a sequence of operations. -/
def runOps (s : HistoryState) (ops : List Op) : HistoryState :=
  ops.foldl applyOp s

/-- A state reachable from the initial state by the operations above. -/
def Reachable (s : HistoryState) : Prop :=
  ∃ ops : List Op, runOps initialState ops = s

/-- The index stays within `[0, N]`. -/
def IndexInvariant (s : HistoryState) : Prop :=
  s.history_index ≤ s.history.length

/-- Every overlay key is at most the log length `N` (keys can *equal* `N`). -/
def EditsInvariant (s : HistoryState) : Prop :=
  ∀ k v, (k, v) ∈ s.history_edits → k ≤ s.history.length

/-- The reachable-state invariant. -/
def StateInvariant (s : HistoryState) : Prop :=
  IndexInvariant s ∧ EditsInvariant s

/-! ## Helper lemmas about the overlay, the effective text, and the scans -/

theorem lookup_cons_self {β : Type} (l : List (Nat × β)) (k : Nat) (v : β) :
    List.lookup k ((k, v) :: l) = some v := by
  simp [List.lookup]

theorem lookup_cons_ne {β : Type} (l : List (Nat × β)) (k m : Nat) (v : β) (h : m ≠ k) :
    List.lookup m ((k, v) :: l) = List.lookup m l := by
  have hb : (m == k) = false := beq_eq_false_iff_ne.mpr h
  simp [List.lookup, hb]

theorem scanPrev_step {s : HistoryState} {pfx : PyString} {n : Nat} {t : PyString}
    (he : get_edited_history s n = some t) :
    scanPrev s pfx (n + 1) =
      if pyStartsWith t pfx then ScanResult.found n t else scanPrev s pfx n := by
  show (match get_edited_history s n with
    | none => ScanResult.raised
    | some t => if pyStartsWith t pfx then ScanResult.found n t else scanPrev s pfx n) = _
  rw [he]

theorem scanPrev_step_raised {s : HistoryState} {pfx : PyString} {n : Nat}
    (he : get_edited_history s n = none) :
    scanPrev s pfx (n + 1) = ScanResult.raised := by
  show (match get_edited_history s n with
    | none => ScanResult.raised
    | some t => if pyStartsWith t pfx then ScanResult.found n t else scanPrev s pfx n) = _
  rw [he]

theorem scanNext_step {s : HistoryState} {pfx : PyString} {fuel i : Nat} {t : PyString}
    (he : get_edited_history s i = some t) :
    scanNext s pfx (fuel + 1) i =
      if pyStartsWith t pfx then ScanResult.found i t else scanNext s pfx fuel (i + 1) := by
  show (match get_edited_history s i with
    | none => ScanResult.raised
    | some t => if pyStartsWith t pfx then ScanResult.found i t else scanNext s pfx fuel (i + 1))
      = _
  rw [he]

theorem scanNext_step_raised {s : HistoryState} {pfx : PyString} {fuel i : Nat}
    (he : get_edited_history s i = none) :
    scanNext s pfx (fuel + 1) i = ScanResult.raised := by
  show (match get_edited_history s i with
    | none => ScanResult.raised
    | some t => if pyStartsWith t pfx then ScanResult.found i t else scanNext s pfx fuel (i + 1))
      = _
  rw [he]

theorem mem_of_lookup_eq_some {β : Type} {l : List (Nat × β)} {m : Nat} {v : β}
    (h : List.lookup m l = some v) : (m, v) ∈ l := by
  induction l with
  | nil => simp [List.lookup] at h
  | cons p l ih =>
    obtain ⟨k, b⟩ := p
    by_cases hk : m = k
    · subst hk
      rw [lookup_cons_self] at h
      cases h
      exact List.mem_cons_self _ _
    · rw [lookup_cons_ne _ _ _ _ hk] at h
      exact List.mem_cons_of_mem _ (ih h)

theorem lt_keyBound_of_mem {l : List (Nat × PyString)} {m : Nat} {v : PyString}
    (h : (m, v) ∈ l) : m < keyBound l := by
  induction l with
  | nil => simp at h
  | cons p l ih =>
    rcases List.mem_cons.mp h with h' | h'
    · subst h'
      simp only [keyBound, List.foldr_cons]
      exact Nat.lt_of_lt_of_le (Nat.lt_succ_self m) (Nat.le_max_left _ _)
    · simp only [keyBound, List.foldr_cons]
      exact Nat.lt_of_lt_of_le (ih h') (Nat.le_max_right _ _)

theorem get_edited_history_some_of_lt {s : HistoryState} {i : Nat}
    (h : i < s.history.length) : ∃ t, get_edited_history s i = some t := by
  unfold get_edited_history
  cases hl : s.history_edits.lookup i with
  | some t => exact ⟨t, rfl⟩
  | none =>
    exact ⟨s.history[i], by rw [List.getElem?_eq_getElem h]⟩

theorem get_edited_history_none_of_ge {s : HistoryState} {i : Nat}
    (h : scanBound s ≤ i) : get_edited_history s i = none := by
  unfold get_edited_history
  cases hl : s.history_edits.lookup i with
  | some t =>
    have hm := lt_keyBound_of_mem (mem_of_lookup_eq_some hl)
    have : keyBound s.history_edits ≤ i :=
      le_trans (le_max_right s.history.length _) h
    omega
  | none =>
    have hlen : s.history.length ≤ i := le_trans (le_max_left _ (keyBound s.history_edits)) h
    simp [List.getElem?_eq_none hlen]

theorem scanPrev_found_spec {s : HistoryState} {pfx : PyString} :
    ∀ {n i : Nat} {t : PyString}, scanPrev s pfx n = ScanResult.found i t →
      i < n ∧ get_edited_history s i = some t ∧ pyStartsWith t pfx = true := by
  intro n
  induction n with
  | zero => intro i t h; simp [scanPrev] at h
  | succ n ih =>
    intro i t h
    cases he : get_edited_history s n with
    | none => rw [scanPrev_step_raised he] at h; cases h
    | some u =>
      rw [scanPrev_step he] at h
      by_cases hp : pyStartsWith u pfx = true
      · rw [if_pos hp] at h
        cases h
        exact ⟨Nat.lt_succ_self _, he, hp⟩
      · rw [if_neg hp] at h
        obtain ⟨h1, h2, h3⟩ := ih h
        exact ⟨Nat.lt_succ_of_lt h1, h2, h3⟩

theorem scanPrev_found_max {s : HistoryState} {pfx : PyString} :
    ∀ {n i : Nat} {t : PyString}, scanPrev s pfx n = ScanResult.found i t →
      ∀ m, i < m → m < n → ∀ u, get_edited_history s m = some u →
        pyStartsWith u pfx = false := by
  intro n
  induction n with
  | zero => intro i t h; simp [scanPrev] at h
  | succ n ih =>
    intro i t h m him hmn u hu
    cases he : get_edited_history s n with
    | none => rw [scanPrev_step_raised he] at h; cases h
    | some w =>
      rw [scanPrev_step he] at h
      by_cases hp : pyStartsWith w pfx = true
      · rw [if_pos hp] at h
        cases h
        omega
      · rw [if_neg hp] at h
        rcases Nat.lt_succ_iff_lt_or_eq.mp hmn with hlt | heq
        · exact ih h m him hlt u hu
        · subst heq
          rw [he] at hu
          cases hu
          exact Bool.eq_false_iff.mpr hp

theorem scanPrev_noMatch_of {s : HistoryState} {pfx : PyString} :
    ∀ {n : Nat},
      (∀ i, i < n → ∃ t, get_edited_history s i = some t ∧ pyStartsWith t pfx = false) →
      scanPrev s pfx n = ScanResult.noMatch := by
  intro n
  induction n with
  | zero => intro _; rfl
  | succ n ih =>
    intro h
    obtain ⟨t, ht, hf⟩ := h n (Nat.lt_succ_self n)
    rw [scanPrev_step ht, if_neg (by simp [hf])]
    exact ih fun i hi => h i (Nat.lt_succ_of_lt hi)

theorem scanNext_found_spec {s : HistoryState} {pfx : PyString} :
    ∀ {fuel i j : Nat} {t : PyString}, scanNext s pfx fuel i = ScanResult.found j t →
      i ≤ j ∧ get_edited_history s j = some t ∧ pyStartsWith t pfx = true := by
  intro fuel
  induction fuel with
  | zero => intro i j t h; simp [scanNext] at h
  | succ fuel ih =>
    intro i j t h
    cases he : get_edited_history s i with
    | none => rw [scanNext_step_raised he] at h; cases h
    | some u =>
      rw [scanNext_step he] at h
      by_cases hp : pyStartsWith u pfx = true
      · rw [if_pos hp] at h
        cases h
        exact ⟨Nat.le_refl _, he, hp⟩
      · rw [if_neg hp] at h
        obtain ⟨h1, h2, h3⟩ := ih h
        exact ⟨Nat.le_of_succ_le h1, h2, h3⟩

theorem scanNext_fuel_stable (s : HistoryState) (pfx : PyString) :
    ∀ fuel i, scanBound s < i + fuel →
      scanNext s pfx fuel i = scanNext s pfx (fuel + 1) i := by
  intro fuel
  induction fuel with
  | zero =>
    intro i h
    have : get_edited_history s i = none := get_edited_history_none_of_ge (by omega)
    simp [scanNext, this]
  | succ fuel ih =>
    intro i h
    cases he : get_edited_history s i with
    | none => rw [scanNext_step_raised he, scanNext_step_raised he]
    | some t =>
      rw [scanNext_step he, scanNext_step he]
      by_cases hp : pyStartsWith t pfx = true
      · rw [if_pos hp, if_pos hp]
      · rw [if_neg hp, if_neg hp]
        exact ih (i + 1) (by omega)

theorem scanNext_fuel_congr (s : HistoryState) (pfx : PyString) :
    ∀ d fuel i, scanBound s < i + fuel →
      scanNext s pfx fuel i = scanNext s pfx (fuel + d) i := by
  intro d
  induction d with
  | zero => intro fuel i _; rfl
  | succ d ih =>
    intro fuel i h
    rw [ih fuel i h, scanNext_fuel_stable s pfx (fuel + d) i (by omega)]
    rfl

theorem scanNext_found_at {s : HistoryState} {pfx : PyString} {stop : Nat} {t : PyString}
    (hstop : get_edited_history s stop = some t) (hmatch : pyStartsWith t pfx = true) :
    ∀ fuel i, i ≤ stop → stop < i + fuel →
      (∀ m, i ≤ m → m < stop →
        ∃ u, get_edited_history s m = some u ∧ pyStartsWith u pfx = false) →
      scanNext s pfx fuel i = ScanResult.found stop t := by
  intro fuel
  induction fuel with
  | zero => intro i h1 h2 _; omega
  | succ fuel ih =>
    intro i h1 h2 hregion
    by_cases hi : i = stop
    · subst hi
      rw [scanNext_step hstop, if_pos hmatch]
    · have hlt : i < stop := Nat.lt_of_le_of_ne h1 hi
      obtain ⟨u, hu, hf⟩ := hregion i (Nat.le_refl i) hlt
      rw [scanNext_step hu, if_neg (by simp [hf])]
      exact ih (i + 1) hlt (by omega) fun m hm1 hm2 => hregion m (by omega) hm2

theorem pyStartsWith_nil (t : PyString) : pyStartsWith t [] = true := by
  cases t <;> rfl

theorem le_length_of_get_edited_history_some {s : HistoryState} (hed : EditsInvariant s)
    {i : Nat} {t : PyString} (h : get_edited_history s i = some t) :
    i ≤ s.history.length := by
  unfold get_edited_history at h
  cases hl : s.history_edits.lookup i with
  | some u => exact hed i u (mem_of_lookup_eq_some hl)
  | none =>
    rw [hl] at h
    by_contra hq
    push_neg at hq
    rw [List.getElem?_eq_none (Nat.le_of_lt hq)] at h
    cases h

theorem history_previous_cases (s : HistoryState) (pfx : PyString) :
    history_previous s pfx = (s, NavOutcome.raised) ∨
    history_previous s pfx = (s, NavOutcome.noMatch) ∨
    ∃ i t, scanPrev s pfx s.history_index = ScanResult.found i t ∧
      history_previous s pfx =
        ({ set_edited_input_buffer s t with history_index := i }, NavOutcome.moved t) := by
  unfold history_previous
  cases h : scanPrev s pfx s.history_index with
  | raised => exact Or.inl rfl
  | noMatch => exact Or.inr (Or.inl rfl)
  | found i t => exact Or.inr (Or.inr ⟨i, t, rfl, rfl⟩)

theorem history_next_cases (s : HistoryState) (pfx : PyString) :
    history_next s pfx = (s, NavOutcome.raised) ∨
    history_next s pfx = (s, NavOutcome.noMatch) ∨
    ∃ i t, scanNext s pfx (scanBound s + 1) (s.history_index + 1) = ScanResult.found i t ∧
      history_next s pfx =
        ({ set_edited_input_buffer s t with history_index := i }, NavOutcome.moved t) := by
  unfold history_next
  by_cases hc : s.history_index < s.history.length
  · rw [if_pos hc]
    cases h : scanNext s pfx (scanBound s + 1) (s.history_index + 1) with
    | raised => exact Or.inl rfl
    | noMatch => exact Or.inr (Or.inl rfl)
    | found i t => exact Or.inr (Or.inr ⟨i, t, rfl, rfl⟩)
  · rw [if_neg hc]
    exact Or.inr (Or.inl rfl)

theorem history_prev_of_found {s : HistoryState} {pfx : PyString} {i : Nat} {t : PyString}
    (hscan : scanPrev s pfx s.history_index = ScanResult.found i t) :
    history_previous s pfx =
      ({ set_edited_input_buffer s t with history_index := i }, NavOutcome.moved t) := by
  unfold history_previous
  rw [hscan]

theorem history_next_of_found {s : HistoryState} {pfx : PyString} {i : Nat} {t : PyString}
    (hlt : s.history_index < s.history.length)
    (hscan : scanNext s pfx (scanBound s + 1) (s.history_index + 1) = ScanResult.found i t) :
    history_next s pfx =
      ({ set_edited_input_buffer s t with history_index := i }, NavOutcome.moved t) := by
  unfold history_next
  rw [if_pos hlt, hscan]

theorem stateInvariant_applyOp {s : HistoryState} (h : StateInvariant s) (op : Op) :
    StateInvariant (applyOp s op) := by
  obtain ⟨hidx, hedits⟩ := h
  cases op with
  | exec source hidden executed =>
    show StateInvariant (execute s source hidden executed).1
    unfold execute
    by_cases hc : (executed && !hidden) = true
    · rw [if_pos hc]
      refine ⟨Nat.le_refl _, ?_⟩
      intro k v hkv
      exact absurd hkv (List.not_mem_nil _)
    · rw [if_neg hc]
      exact ⟨hidx, hedits⟩
  | prev pfx =>
    show StateInvariant (history_previous s pfx).1
    rcases history_previous_cases s pfx with hp | hp | ⟨i, t, hscan, hp⟩
    · rw [hp]; exact ⟨hidx, hedits⟩
    · rw [hp]; exact ⟨hidx, hedits⟩
    · rw [hp]
      obtain ⟨hlt, _, _⟩ := scanPrev_found_spec hscan
      refine ⟨Nat.le_of_lt (Nat.lt_of_lt_of_le hlt hidx), ?_⟩
      intro k v hkv
      simp only [set_edited_input_buffer] at hkv
      rcases List.mem_cons.mp hkv with hkv | hkv
      · simp only [Prod.mk.injEq] at hkv
        obtain ⟨rfl, rfl⟩ := hkv
        exact hidx
      · exact hedits k v hkv
  | next pfx =>
    show StateInvariant (history_next s pfx).1
    rcases history_next_cases s pfx with hp | hp | ⟨i, t, hscan, hp⟩
    · rw [hp]; exact ⟨hidx, hedits⟩
    · rw [hp]; exact ⟨hidx, hedits⟩
    · rw [hp]
      obtain ⟨_, heff, _⟩ := scanNext_found_spec hscan
      refine ⟨le_length_of_get_edited_history_some hedits heff, ?_⟩
      intro k v hkv
      simp only [set_edited_input_buffer] at hkv
      rcases List.mem_cons.mp hkv with hkv | hkv
      · simp only [Prod.mk.injEq] at hkv
        obtain ⟨rfl, rfl⟩ := hkv
        exact hidx
      · exact hedits k v hkv
  | setHistory entries =>
    refine ⟨Nat.le_refl _, ?_⟩
    intro k v hkv
    exact absurd hkv (List.not_mem_nil _)
  | setBuffer text =>
    exact ⟨hidx, hedits⟩

theorem stateInvariant_runOps (s : HistoryState) (h : StateInvariant s) (ops : List Op) :
    StateInvariant (runOps s ops) := by
  induction ops generalizing s with
  | nil => exact h
  | cons op ops ih => exact ih _ (stateInvariant_applyOp h op)

theorem stateInvariant_initial : StateInvariant initialState := by
  refine ⟨Nat.le_refl _, ?_⟩
  intro k v hkv
  exact absurd hkv (List.not_mem_nil _)

theorem stateInvariant_reachable {s : HistoryState} (h : Reachable s) : StateInvariant s := by
  obtain ⟨ops, rfl⟩ := h
  exact stateInvariant_runOps _ stateInvariant_initial ops

/-! ## The commit-only log invariant (trim + dedup) -/

/-- The log never holds two adjacent equal entries, nor an empty string. -/
def LogInvariant (log : List PyString) : Prop :=
  List.Chain' (· ≠ ·) log ∧ ([] : PyString) ∉ log

theorem logInvariant_commitLog {log : List PyString} (h : LogInvariant log) (c : PyString) :
    LogInvariant (commitLog log c) := by
  obtain ⟨hch, hne⟩ := h
  unfold commitLog
  split
  case isTrue hc =>
    obtain ⟨hnil, hlast⟩ := hc
    constructor
    · rw [List.chain'_append]
      refine ⟨hch, List.chain'_singleton _, ?_⟩
      intro x hx y hy
      simp only [List.head?_cons, Option.mem_def, Option.some.injEq] at hy
      subst hy
      intro hxy
      exact hlast (by rw [← hxy]; exact hx)
    · intro hmem
      rcases List.mem_append.mp hmem with hm | hm
      · exact hne hm
      · rw [List.mem_singleton] at hm
        exact hnil hm.symm
  case isFalse => exact ⟨hch, hne⟩

theorem logInvariant_runCommits (cs : List PyString) :
    ∀ s : HistoryState, LogInvariant s.history → LogInvariant (runCommits s cs).history := by
  induction cs with
  | nil => intro s h; exact h
  | cons c cs ih =>
    intro s h
    refine ih (commit s c) ?_
    show LogInvariant (commitLog s.history c)
    exact logInvariant_commitLog h c

/-! ## Sanity checks of the embedding on the spec's worked scenario (section 8) -/

example :
    history_previous ⟨["ls".toList, "cd /tmp".toList, "ls -la".toList], [], 3, []⟩ "ls".toList
      = (⟨["ls".toList, "cd /tmp".toList, "ls -la".toList], [(3, [])], 2, "ls -la".toList⟩,
         NavOutcome.moved "ls -la".toList) := by decide

example :
    history_previous ⟨["ls".toList, "cd /tmp".toList, "ls -la".toList], [(3, [])], 2,
        "ls -la".toList⟩ "ls".toList
      = (⟨["ls".toList, "cd /tmp".toList, "ls -la".toList], [(2, "ls -la".toList), (3, [])], 0,
          "ls".toList⟩, NavOutcome.moved "ls".toList) := by decide

/-! ## The forward scan from a state just left by a successful backward move -/

theorem forward_from_found (log : List PyString) (edits : List (Nat × PyString))
    (B u pfx : PyString) (j : Nat)
    (hj : j < log.length)
    (hpre : pyStartsWith B pfx = true)
    (hreg : ∀ m, j < m → m < log.length → ∀ w,
      get_edited_history ⟨log, edits, log.length, B⟩ m = some w →
        pyStartsWith w pfx = false) :
    history_next ⟨log, (log.length, B) :: edits, j, u⟩ pfx
      = (⟨log, (j, u) :: (log.length, B) :: edits, log.length, B⟩, NavOutcome.moved B) := by
  have hstop :
      get_edited_history ⟨log, (log.length, B) :: edits, j, u⟩ log.length = some B := by
    show (match List.lookup log.length ((log.length, B) :: edits) with
      | some h => some h
      | none => log[log.length]?) = some B
    rw [lookup_cons_self]
  have hreg2 : ∀ m, j + 1 ≤ m → m < log.length →
      ∃ w, get_edited_history ⟨log, (log.length, B) :: edits, j, u⟩ m = some w ∧
        pyStartsWith w pfx = false := by
    intro m hm1 hm2
    have hmn : m ≠ log.length := by omega
    have heq : get_edited_history ⟨log, (log.length, B) :: edits, j, u⟩ m
        = get_edited_history ⟨log, edits, log.length, B⟩ m := by
      show (match List.lookup m ((log.length, B) :: edits) with
        | some h => some h
        | none => log[m]?) = (match List.lookup m edits with
        | some h => some h
        | none => log[m]?)
      rw [lookup_cons_ne _ _ _ _ hmn]
    obtain ⟨w, hw⟩ := get_edited_history_some_of_lt (s := ⟨log, edits, log.length, B⟩) hm2
    refine ⟨w, ?_, hreg m (by omega) hm2 w hw⟩
    rw [heq]
    exact hw
  have hlen : log.length ≤ scanBound ⟨log, (log.length, B) :: edits, j, u⟩ :=
    le_max_left _ _
  have hscan : scanNext ⟨log, (log.length, B) :: edits, j, u⟩ pfx
      (scanBound ⟨log, (log.length, B) :: edits, j, u⟩ + 1) (j + 1)
      = ScanResult.found log.length B :=
    scanNext_found_at hstop hpre _ (j + 1) (by omega) (by omega) hreg2
  exact history_next_of_found hj hscan

/-! ## Claim theorems -/

/-- C1 (code_bug): the claim says no history-core operation ever raises and
every log/overlay access in a navigation scan is in bounds.  Refuted: on the
reachable state obtained by committing "ab", typing "x", and navigating
backward with the empty search string (log = ["ab"], overlay = {1 ↦ "x"},
index = 0), `history_next("a")` raises: its loop condition
`self._history_index < len(self._history)` never changes inside the loop, so
the scan runs to index 2 and `self._history[2]` raises `IndexError`. -/
theorem history_next_raises_on_reachable_state :
    (history_next (runOps initialState
        [Op.exec (some "ab".toList) false true, Op.setBuffer "x".toList, Op.prev []])
      "a".toList).2 = NavOutcome.raised := by decide

/-- C2 counterexample: the claim says the forward scan terminates with a
clean failure, leaving the state unchanged, when the index would reach N
without a match.  Refuted: from the reachable state log = ["ab"],
overlay = {1 ↦ "x"}, index = 0 (N = 1), `history_next("x")` reaches index
N = 1, finds the overlay entry "x" there, and *succeeds*, changing the
state (it moves to index N and writes overlay[0]). -/
theorem history_next_succeeds_at_index_N :
    runOps initialState [Op.exec (some "ab".toList) false true, Op.setBuffer "x".toList,
        Op.prev []]
      = ⟨["ab".toList], [(1, "x".toList)], 0, "ab".toList⟩ ∧
    history_next ⟨["ab".toList], [(1, "x".toList)], 0, "ab".toList⟩ "x".toList
      = (⟨["ab".toList], [(0, "ab".toList), (1, "x".toList)], 1, "x".toList⟩,
         NavOutcome.moved "x".toList) := by decide

/-- C2 amended: the forward scan is a total function of the state — its
result is unchanged by any fuel of at least `scanBound s + 1`, i.e. the scan
stops within `max(log length, greatest overlay key + 1) + 1` steps — and the
call fails immediately, leaving the state unchanged, exactly when the
current index is at least the log length.  (Reaching index N does not
terminate the scan: N may hold an overlay entry and match, as the
counterexample shows; passing N without a match raises rather than failing
cleanly, see C1.) -/
theorem history_next_scan_bounded (s : HistoryState) (pfx : PyString) :
    (s.history.length ≤ s.history_index → history_next s pfx = (s, NavOutcome.noMatch)) ∧
    (∀ fuel, scanBound s + 1 ≤ fuel →
      scanNext s pfx fuel (s.history_index + 1)
        = scanNext s pfx (scanBound s + 1) (s.history_index + 1)) := by
  constructor
  · intro h
    unfold history_next
    rw [if_neg (by omega)]
  · intro fuel hf
    obtain ⟨d, rfl⟩ : ∃ d, fuel = (scanBound s + 1) + d := ⟨fuel - (scanBound s + 1), by omega⟩
    exact (scanNext_fuel_congr s pfx d (scanBound s + 1) (s.history_index + 1) (by omega)).symm

/-- Witness for C2 amended at the state log = ["ab"], index = 1 = N. -/
theorem history_next_scan_bounded_witness :
    history_next ⟨["ab".toList], [], 1, []⟩ []
      = (⟨["ab".toList], [], 1, []⟩, NavOutcome.noMatch) ∧
    scanNext ⟨["ab".toList], [], 1, []⟩ [] 7 2
      = scanNext ⟨["ab".toList], [], 1, []⟩ [] (scanBound ⟨["ab".toList], [], 1, []⟩ + 1) 2 :=
  ⟨(history_next_scan_bounded ⟨["ab".toList], [], 1, []⟩ []).1 (by decide),
   (history_next_scan_bounded ⟨["ab".toList], [], 1, []⟩ []).2 7 (by decide)⟩

/-- C3 counterexample: the claim says overlay keys are always a subset of
[0, N-1] and that a successful backward navigation from index N writes no
overlay entry at key N.  Refuted: after committing "ab" (N = 1, index = 1)
a successful `history_previous("")` writes the live buffer at overlay key
1 = N (`_set_edited_input_buffer` stores at the *old* `_history_index`). -/
theorem overlay_key_equal_log_length_reachable :
    (runOps initialState [Op.exec (some "ab".toList) false true, Op.prev []]).history.length
      = 1 ∧
    (runOps initialState
        [Op.exec (some "ab".toList) false true, Op.prev []]).history_edits.lookup 1
      = some [] := by decide

/-- C3 amended: in every state reachable from the initial state by commit,
backward/forward navigation, reset, and external buffer writes, the index is
in [0, N] and every overlay key is in [0, N] (keys can equal N: a successful
backward navigation whose old index is k writes the live buffer at key k,
including k = N). -/
theorem reachable_state_bounds (s : HistoryState) (h : Reachable s) :
    s.history_index ≤ s.history.length ∧
    ∀ k v, (k, v) ∈ s.history_edits → k ≤ s.history.length :=
  stateInvariant_reachable h

/-- Witness for C3 amended at the initial state. -/
theorem reachable_state_bounds_witness :
    initialState.history_index ≤ initialState.history.length ∧
    ∀ k v, (k, v) ∈ initialState.history_edits → k ≤ initialState.history.length :=
  reachable_state_bounds initialState ⟨[], rfl⟩

/-- C4 (code_bug): the claim (and the method's own docstring, "the (maximum)
number of history items to get") says `history_tail(n)` returns at most `n`
entries, with the empty sequence for n = 0.  Refuted: `self._history[-n:]`
with n = 0 is `self._history[0:]`, the whole log. -/
theorem history_tail_zero_returns_entire_log :
    history_tail ⟨["ls".toList], [], 1, []⟩ 0 = ["ls".toList] ∧
    (history_tail ⟨["ls".toList], [], 1, []⟩ 0).length = 1 := by decide

/-- C5 counterexample: the claim says a rejected commit leaves log, overlay
and index all unchanged.  Refuted: committing "ab" on a state whose last log
entry is already "ab" (a rejected duplicate) leaves the log unchanged but
*clears the overlay and resets the index to N* — the overlay reset and index
move sit outside the dedup guard in `execute`. -/
theorem rejected_commit_mutates_overlay_and_index :
    pyRstrip "ab".toList = "ab".toList ∧
    (⟨["ab".toList], [(1, [])], 0, "ab".toList⟩ : HistoryState).history.getLast?
      = some "ab".toList ∧
    commit ⟨["ab".toList], [(1, [])], 0, "ab".toList⟩ "ab".toList
      = ⟨["ab".toList], [], 1, "ab".toList⟩ := by decide

/-- C5 amended: a rejected commit (trimmed-empty or duplicate candidate, the
line having been executed and not hidden) leaves the log unchanged and
appends nothing, but still clears the overlay and sets the index to the log
length. -/
theorem rejected_commit_log_unchanged (s : HistoryState) (c : PyString)
    (h : pyRstrip c = [] ∨ s.history.getLast? = some (pyRstrip c)) :
    (commit s c).history = s.history ∧
    (commit s c).history_edits = [] ∧
    (commit s c).history_index = s.history.length := by
  have h' : ¬(pyRstrip c ≠ [] ∧ s.history.getLast? ≠ some (pyRstrip c)) := by
    rcases h with h | h
    · intro hc; exact hc.1 h
    · intro hc; exact hc.2 h
  have hlog : commitLog s.history c = s.history := by
    unfold commitLog
    rw [if_neg h']
  refine ⟨?_, rfl, ?_⟩
  · show commitLog s.history c = s.history
    exact hlog
  · show (commitLog s.history c).length = s.history.length
    rw [hlog]

/-- Witness for C5 amended: a whitespace-only candidate on the initial
state. -/
theorem rejected_commit_log_unchanged_witness :
    (pyRstrip " ".toList = [] ∨ initialState.history.getLast? = some (pyRstrip " ".toList)) ∧
    ((commit initialState " ".toList).history = initialState.history ∧
     (commit initialState " ".toList).history_edits = [] ∧
     (commit initialState " ".toList).history_index = initialState.history.length) :=
  ⟨Or.inl (by decide),
   rejected_commit_log_unchanged initialState " ".toList (Or.inl (by decide))⟩

/-- C6 counterexample: the claim says that when no index in the scan
direction has an effective text starting with the search string, the call
reports failure and leaves the state unchanged.  Refuted for the forward
direction: in the state log = ["ab"], overlay = {1 ↦ "x"}, index = 0, no
forward index matches "zz" (index 1's effective text is "x", index 2 has
none), yet `history_next("zz")` raises instead of reporting failure. -/
theorem history_next_no_match_raises :
    get_edited_history ⟨["ab".toList], [(1, "x".toList)], 0, "ab".toList⟩ 1
      = some "x".toList ∧
    pyStartsWith "x".toList "zz".toList = false ∧
    get_edited_history ⟨["ab".toList], [(1, "x".toList)], 0, "ab".toList⟩ 2 = none ∧
    history_next ⟨["ab".toList], [(1, "x".toList)], 0, "ab".toList⟩ "zz".toList
      = (⟨["ab".toList], [(1, "x".toList)], 0, "ab".toList⟩, NavOutcome.raised) := by decide

/-- C6 amended: for every state with index ≤ N, (i) a successful backward
navigation lands strictly below the old index on a position whose effective
text (overlay-or-log, in the pre-call state) starts with the search string,
and sets the buffer to that text; (ii) if no position below the index
matches, the backward call reports failure and leaves the state unchanged;
(iii) a successful forward navigation likewise lands strictly above the old
index on a matching position; (iv) the forward call reports clean failure
with unchanged state when the index is at least N — but when the index is
below N and no position matches, it raises instead (see the
counterexample). -/
theorem navigation_lands_on_matches (s : HistoryState) (pfx : PyString)
    (h : s.history_index ≤ s.history.length) :
    (∀ t, (history_previous s pfx).2 = NavOutcome.moved t →
      (history_previous s pfx).1.history_index < s.history_index ∧
      get_edited_history s (history_previous s pfx).1.history_index = some t ∧
      pyStartsWith t pfx = true ∧
      (history_previous s pfx).1.input_buffer = t) ∧
    ((∀ i, i < s.history_index → ∀ t, get_edited_history s i = some t →
        pyStartsWith t pfx = false) →
      history_previous s pfx = (s, NavOutcome.noMatch)) ∧
    (∀ t, (history_next s pfx).2 = NavOutcome.moved t →
      s.history_index < (history_next s pfx).1.history_index ∧
      get_edited_history s (history_next s pfx).1.history_index = some t ∧
      pyStartsWith t pfx = true ∧
      (history_next s pfx).1.input_buffer = t) ∧
    (s.history.length ≤ s.history_index → history_next s pfx = (s, NavOutcome.noMatch)) := by
  refine ⟨?_, ?_, ?_, ?_⟩
  · intro t hmv
    rcases history_previous_cases s pfx with hp | hp | ⟨i, u, hscan, hp⟩
    · rw [hp] at hmv; cases hmv
    · rw [hp] at hmv; cases hmv
    · rw [hp] at hmv
      cases hmv
      obtain ⟨h1, h2, h3⟩ := scanPrev_found_spec hscan
      rw [hp]
      exact ⟨h1, h2, h3, rfl⟩
  · intro hno
    have hsc : scanPrev s pfx s.history_index = ScanResult.noMatch := by
      refine scanPrev_noMatch_of ?_
      intro i hi
      obtain ⟨t, ht⟩ := get_edited_history_some_of_lt (Nat.lt_of_lt_of_le hi h)
      exact ⟨t, ht, hno i hi t ht⟩
    unfold history_previous
    rw [hsc]
  · intro t hmv
    rcases history_next_cases s pfx with hp | hp | ⟨i, u, hscan, hp⟩
    · rw [hp] at hmv; cases hmv
    · rw [hp] at hmv; cases hmv
    · rw [hp] at hmv
      cases hmv
      obtain ⟨h1, h2, h3⟩ := scanNext_found_spec hscan
      rw [hp]
      exact ⟨Nat.lt_of_succ_le h1, h2, h3, rfl⟩
  · intro hge
    unfold history_next
    rw [if_neg (by omega)]

/-- Witness for C6 amended at the state log = ["ab"], index = 1. -/
theorem navigation_lands_on_matches_witness :
    (∀ t, (history_previous ⟨["ab".toList], [], 1, "ab".toList⟩ "z".toList).2
        = NavOutcome.moved t →
      (history_previous ⟨["ab".toList], [], 1, "ab".toList⟩ "z".toList).1.history_index < 1 ∧
      get_edited_history ⟨["ab".toList], [], 1, "ab".toList⟩
        (history_previous ⟨["ab".toList], [], 1, "ab".toList⟩ "z".toList).1.history_index
        = some t ∧
      pyStartsWith t "z".toList = true ∧
      (history_previous ⟨["ab".toList], [], 1, "ab".toList⟩ "z".toList).1.input_buffer = t) ∧
    ((∀ i, i < 1 → ∀ t, get_edited_history ⟨["ab".toList], [], 1, "ab".toList⟩ i = some t →
        pyStartsWith t "z".toList = false) →
      history_previous ⟨["ab".toList], [], 1, "ab".toList⟩ "z".toList
        = (⟨["ab".toList], [], 1, "ab".toList⟩, NavOutcome.noMatch)) ∧
    (∀ t, (history_next ⟨["ab".toList], [], 1, "ab".toList⟩ "z".toList).2
        = NavOutcome.moved t →
      1 < (history_next ⟨["ab".toList], [], 1, "ab".toList⟩ "z".toList).1.history_index ∧
      get_edited_history ⟨["ab".toList], [], 1, "ab".toList⟩
        (history_next ⟨["ab".toList], [], 1, "ab".toList⟩ "z".toList).1.history_index
        = some t ∧
      pyStartsWith t "z".toList = true ∧
      (history_next ⟨["ab".toList], [], 1, "ab".toList⟩ "z".toList).1.input_buffer = t) ∧
    (1 ≤ 1 →
      history_next ⟨["ab".toList], [], 1, "ab".toList⟩ "z".toList
        = (⟨["ab".toList], [], 1, "ab".toList⟩, NavOutcome.noMatch)) :=
  navigation_lands_on_matches ⟨["ab".toList], [], 1, "ab".toList⟩ "z".toList (by decide)

/-- C7 counterexample: the claim states the round trip for *every* buffer
text B.  Refuted when B does not start with the search string: from
log = ["ab"], index = 1 = N, buffer "x", `history_previous("a")` succeeds
(moves to "ab"), but the following `history_next("a")` raises — the saved
overlay entry at key N is "x", which does not match "a", so the forward scan
runs past the log — and the buffer/index are never restored. -/
theorem roundtrip_raises_without_matching_buffer :
    (history_previous ⟨["ab".toList], [], 1, "x".toList⟩ "a".toList).2
      = NavOutcome.moved "ab".toList ∧
    (history_next (history_previous ⟨["ab".toList], [], 1, "x".toList⟩ "a".toList).1
        "a".toList).2 = NavOutcome.raised := by decide

/-- C7 amended: from index N with buffer text B, *given that B starts with
the search string p*, a successful `history_previous(p)` (with B the current
buffer) followed by one `history_next(p)` with no intervening commit returns
to buffer content B with index = N: the backward move saves B in the overlay
at key N, the indices strictly between the landing point and N do not match
p (the backward scan took the first match from the top), so the forward scan
stops exactly at N and restores B. -/
theorem roundtrip_backward_forward (s : HistoryState) (pfx B : PyString)
    (hB : s.input_buffer = B)
    (hidx : s.history_index = s.history.length)
    (hpre : pyStartsWith B pfx = true)
    (t : PyString) (hmv : (history_previous s pfx).2 = NavOutcome.moved t) :
    (history_next (history_previous s pfx).1 pfx).1.input_buffer = B ∧
    (history_next (history_previous s pfx).1 pfx).1.history_index = s.history.length ∧
    (history_next (history_previous s pfx).1 pfx).2 = NavOutcome.moved B := by
  obtain ⟨log, edits, idx, buf⟩ := s
  simp only at hB hidx
  subst hB
  subst hidx
  rcases history_previous_cases ⟨log, edits, log.length, buf⟩ pfx
    with hp | hp | ⟨j, u, hscan, hp⟩
  · rw [hp] at hmv; cases hmv
  · rw [hp] at hmv; cases hmv
  · obtain ⟨hj, hju, hjm⟩ := scanPrev_found_spec hscan
    have hjlen : j < log.length := hj
    have hreg : ∀ m, j < m → m < log.length → ∀ w,
        get_edited_history ⟨log, edits, log.length, buf⟩ m = some w →
          pyStartsWith w pfx = false :=
      fun m h1 h2 w hw => scanPrev_found_max hscan m h1 h2 w hw
    have hfwd := forward_from_found log edits buf u pfx j hjlen hpre hreg
    rw [hp]
    show (history_next ⟨log, (log.length, buf) :: edits, j, u⟩ pfx).1.input_buffer = buf ∧
      (history_next ⟨log, (log.length, buf) :: edits, j, u⟩ pfx).1.history_index
        = log.length ∧
      (history_next ⟨log, (log.length, buf) :: edits, j, u⟩ pfx).2 = NavOutcome.moved buf
    rw [hfwd]
    exact ⟨rfl, rfl, rfl⟩

/-- Witness for C7 amended: log = ["ab"], buffer "ab", search string "a". -/
theorem roundtrip_backward_forward_witness :
    (history_next (history_previous ⟨["ab".toList], [], 1, "ab".toList⟩ "a".toList).1
        "a".toList).1.input_buffer = "ab".toList ∧
    (history_next (history_previous ⟨["ab".toList], [], 1, "ab".toList⟩ "a".toList).1
        "a".toList).1.history_index = 1 ∧
    (history_next (history_previous ⟨["ab".toList], [], 1, "ab".toList⟩ "a".toList).1
        "a".toList).2 = NavOutcome.moved "ab".toList :=
  roundtrip_backward_forward ⟨["ab".toList], [], 1, "ab".toList⟩ "a".toList "ab".toList
    rfl (by decide) (by decide) "ab".toList (by decide)

/-- C8 (confirmed): for every sequence of commit calls from the initial
state — hence from any log built only by commits — the log never contains
two adjacent equal entries and never contains an empty string, for all
candidate strings including whitespace-only ones. -/
theorem commit_log_chain_ne_and_no_empty (cs : List PyString) :
    List.Chain' (fun a b => a ≠ b) (runCommits initialState cs).history ∧
    ([] : PyString) ∉ (runCommits initialState cs).history :=
  logInvariant_runCommits cs initialState ⟨List.chain'_nil, List.not_mem_nil _⟩

/-- Witness for C8 on a concrete commit sequence with a duplicate and a
whitespace-only candidate. -/
theorem commit_log_chain_ne_and_no_empty_witness :
    List.Chain' (fun a b => a ≠ b)
      (runCommits initialState ["ls".toList, "ls".toList, "  ".toList]).history ∧
    ([] : PyString) ∉ (runCommits initialState
      ["ls".toList, "ls".toList, "  ".toList]).history :=
  commit_log_chain_ne_and_no_empty ["ls".toList, "ls".toList, "  ".toList]

/-- C9 (confirmed): after every successful commit — one that appends the
trimmed candidate, growing the log by one — the overlay is empty and the
index equals the new log length. -/
theorem successful_commit_resets_overlay_and_index (s : HistoryState) (c : PyString)
    (h : (commit s c).history.length = s.history.length + 1) :
    (commit s c).history_edits = [] ∧
    (commit s c).history_index = (commit s c).history.length :=
  ⟨rfl, rfl⟩

/-- Witness for C9: committing "x" on the initial state. -/
theorem successful_commit_resets_overlay_and_index_witness :
    (commit initialState "x".toList).history.length = initialState.history.length + 1 ∧
    ((commit initialState "x".toList).history_edits = [] ∧
     (commit initialState "x".toList).history_index
       = (commit initialState "x".toList).history.length) :=
  ⟨by decide,
   successful_commit_resets_overlay_and_index initialState "x".toList (by decide)⟩

/-- C10 (confirmed): from any state with 0 < index ≤ N, `history_previous`
with the empty search string succeeds, moves the index to exactly index - 1,
saves the buffer at the old index, and returns the effective
(overlay-or-log) text at index - 1; and no navigation call, in either
direction and with any search string, ever modifies the log. -/
theorem history_previous_empty_pfx_decrements (s : HistoryState)
    (h1 : 0 < s.history_index) (h2 : s.history_index ≤ s.history.length) :
    (∃ t, get_edited_history s (s.history_index - 1) = some t ∧
       history_previous s [] =
         ({ set_edited_input_buffer s t with history_index := s.history_index - 1 },
          NavOutcome.moved t)) ∧
    (∀ s2 : HistoryState, ∀ pfx : PyString,
      (history_previous s2 pfx).1.history = s2.history ∧
      (history_next s2 pfx).1.history = s2.history) := by
  constructor
  · have hml : s.history_index - 1 < s.history.length := by omega
    obtain ⟨t, ht⟩ := get_edited_history_some_of_lt hml
    refine ⟨t, ht, ?_⟩
    apply history_prev_of_found
    obtain ⟨m, hm⟩ : ∃ m, s.history_index = m + 1 := ⟨s.history_index - 1, by omega⟩
    rw [hm] at ht ⊢
    rw [scanPrev_step (show get_edited_history s m = some t from ht),
      if_pos (pyStartsWith_nil t)]
    rfl
  · intro s2 pfx
    constructor
    · rcases history_previous_cases s2 pfx with hp | hp | ⟨i, t, _, hp⟩ <;> rw [hp] <;> rfl
    · rcases history_next_cases s2 pfx with hp | hp | ⟨i, t, _, hp⟩ <;> rw [hp] <;> rfl

/-- Witness for C10 at the state log = ["a"], index = 1. -/
theorem history_previous_empty_pfx_decrements_witness :
    (∃ t, get_edited_history ⟨["a".toList], [], 1, []⟩ 0 = some t ∧
       history_previous ⟨["a".toList], [], 1, []⟩ [] =
         ({ set_edited_input_buffer ⟨["a".toList], [], 1, []⟩ t with history_index := 0 },
          NavOutcome.moved t)) ∧
    (∀ s2 : HistoryState, ∀ pfx : PyString,
      (history_previous s2 pfx).1.history = s2.history ∧
      (history_next s2 pfx).1.history = s2.history) :=
  history_previous_empty_pfx_decrements ⟨["a".toList], [], 1, []⟩ (by decide) (by decide)
